import Mathlib

/-
  A verification development for the pretty-printing layout engine in
  `src/pprint/pprint.cc` (namespace `pprint`).  The C++ code builds a
  document tree (`text_t`, `cond_t`, `concat_t`, `group_t`, `nest_t`),
  linearises it into a stream of six event kinds, annotates the events
  with flat-layout horizontal positions, back-patches group-begin
  events with the position of their matching group-end, and renders the
  stream with a `fittingElements` counter deciding which `cond`s break.

  Modelling conventions:
  * `std::string` is modelled as Lean `String`; lengths via `String.length`.
  * The C++ counters (`position`, `hpos`, `fittingElements`,
    `indent` entries) are `unsigned int`/`size_t` values that only ever
    grow by string lengths; they cannot reach 2^32 for any document a
    caller can build, and are modelled as `Nat`.  The single arithmetic
    step that CAN wrap for realistic inputs - the unsigned subtraction
    in `rightEdge = (width - hpos) + *(c.hpos)` - is modelled exactly,
    with the 32-bit wrap-around made explicit (`u32`).
  * `guarantee(...)` aborts the process on failure, `std::vector::back` /
    `pop_back` on an empty vector and dereferencing an empty
    `boost::optional` are undefined; all of these are modelled by the
    corrector/renderer returning `none`.
  * The push-style visitor pipeline is deterministic and single
    threaded, so each stage is modelled as a function on event lists.
-/

namespace pprint

/-! ## Document algebra (`document_t` and subclasses) -/

/-- The five document variants of `pprint.cc`:
`text_t` (literal text), `cond_t` (conditional break with flat form
`small`, continuation `cont` and pre-break appendage `tail`;
constructor argument order `(small, cont, tail)` as in `make_cond`),
`concat_t` (a vector of children), `group_t` (breaking scope) and
`nest_t` (indentation scope). -/
inductive document_t : Type
  | text (s : String)
  | cond (small cont tail : String)
  | concat (children : List document_t)
  | group (child : document_t)
  | nest (child : document_t)

namespace document_t

mutual

/-- `document_t::width()`: flat-layout width.  `text_t` contributes the
length of its text, `cond_t` the length of `small` only, `concat_t` the
sum of its children, and `group_t`/`nest_t` the width of the child. -/
def width : document_t → Nat
  | .text s => s.length
  | .cond small _ _ => small.length
  | .concat l => widthList l
  | .group d => width d
  | .nest d => width d

/-- Sum of the widths of a list of documents (the loop in
`concat_t::width`). -/
def widthList : List document_t → Nat
  | [] => 0
  | d :: ds => width d + widthList ds

end

end document_t

/-! ## Builder API: singletons and combinators -/

/-- `make_text`. -/
def make_text (s : String) : document_t := .text s

/-- `make_cond(l, r, t)` with `l = small`, `r = cont`, `t = tail`
(`t` defaults to `""` in the header; here it is always passed). -/
def make_cond (l r t : String) : document_t := .cond l r t

/-- `make_concat`. -/
def make_concat (l : List document_t) : document_t := .concat l

/-- `make_group`. -/
def make_group (d : document_t) : document_t := .group d

/-- `make_nest`. -/
def make_nest (d : document_t) : document_t := .nest d

/-- The shared singleton `empty = text_t("")`. -/
def empty : document_t := .text ""

/-- The shared singleton `br = cond_t(" ", "")` (small `" "`, cont `""`,
tail `""`). -/
def br : document_t := .cond " " "" ""

/-- The shared singleton `dot = cond_t(".", ".")` (small `"."`,
cont `"."`, tail `""`). -/
def dot : document_t := .cond "." "." ""

/-- Loop body of `comma_separated`: after the first element, emit
`text_t(",")`, `br`, element. -/
def comma_separated_rest : List document_t → List document_t
  | [] => []
  | d :: ds => .text "," :: br :: d :: comma_separated_rest ds

/-- `comma_separated`: empty list gives `empty`; otherwise
`nest(concat(d1, ",", br, d2, ",", br, ..., dn))`. -/
def comma_separated : List document_t → document_t
  | [] => empty
  | d :: ds => make_nest (make_concat (d :: comma_separated_rest ds))

/-- `arglist`: `concat("(", comma_separated(...), ")")`. -/
def arglist (l : List document_t) : document_t :=
  make_concat [.text "(", comma_separated l, .text ")"]

/-- Loop body of `dotted_list_int`: the first separator is the
non-breaking `plain_dot = text_t(".")`, later separators are the
breakable `dot`. -/
def dotted_list_rest (first : Bool) : List document_t → List document_t
  | [] => []
  | d :: ds =>
    (if first then document_t.text "." else dot) :: d :: dotted_list_rest false ds

/-- `dotted_list_int`: `[] ↦ empty`; `[d] ↦ nest(d)`; otherwise
`concat(d1, nest(concat(".", d2, dot, d3, ...)))`. -/
def dotted_list : List document_t → document_t
  | [] => empty
  | [d] => make_nest d
  | d :: ds => make_concat [d, make_nest (make_concat (dotted_list_rest true ds))]

/-- `funcall(name, args) = concat(text(name), arglist(args))`. -/
def funcall (name : String) (args : List document_t) : document_t :=
  make_concat [make_text name, arglist args]

/-- `r_dot(args) = dotted_list_int(r :: args)` with `r = text_t("r")`. -/
def r_dot (args : List document_t) : document_t :=
  dotted_list (.text "r" :: args)

/-! ## Stream elements (`stream_element_t` and subclasses)

Every element carries `boost::optional<size_t> hpos`, modelled as
`Option Nat`.  `cond_element_t` stores its strings in constructor order
`(l = small, t = tail, r = cont)`, exactly as `generate_stream_visitor_t`
passes `(c.small, c.tail, c.cont)`. -/

/-- The six stream event kinds of `pprint.cc`. -/
inductive stream_element_t : Type
  | text_element (payload : String) (hpos : Option Nat)
  | cond_element (small tail cont : String) (hpos : Option Nat)
  | nbeg_element (hpos : Option Nat)
  | nend_element (hpos : Option Nat)
  | gbeg_element (hpos : Option Nat)
  | gend_element (hpos : Option Nat)
deriving DecidableEq

/-! ## Phase 1: `generate_stream_visitor_t`

In-order traversal: `text_t ↦ TextE`, `cond_t ↦ CondE`, `concat_t`
emits children in order, `group_t` wraps in `GBeg .. GEnd`, and
`nest_t` wraps in `NBeg, GBeg, .., GEnd, NEnd`.  All events are born
with `hpos` unset. -/

mutual

/-- `generate_stream_visitor_t` as a function from a document to the
list of events it pushes. -/
def generate_stream : document_t → List stream_element_t
  | .text s => [.text_element s none]
  | .cond small cont tail => [.cond_element small tail cont none]
  | .concat l => generate_stream_list l
  | .group d => .gbeg_element none :: generate_stream d ++ [.gend_element none]
  | .nest d =>
    .nbeg_element none :: .gbeg_element none ::
      generate_stream d ++ [.gend_element none, .nend_element none]

/-- Events generated by a list of documents, in order (the
`std::for_each` over `concat_t::children`). -/
def generate_stream_list : List document_t → List stream_element_t
  | [] => []
  | d :: ds => generate_stream d ++ generate_stream_list ds

end

/-! ## Phase 2: `annotate_stream_visitor_t`

Maintains a running flat-layout `position`; `TextE`/`CondE` advance it
by `payload.size()` / `small.size()` and record it as their `hpos`;
`GEnd`/`NEnd` record it without advancing; `GBeg`/`NBeg` are forwarded
untouched. -/

/-- The annotator as a list transformer; `p` is the visitor's
`position` member. -/
def annotate_stream (p : Nat) : List stream_element_t → List stream_element_t
  | [] => []
  | .text_element s _ :: es =>
    .text_element s (some (p + s.length)) :: annotate_stream (p + s.length) es
  | .cond_element small tail cont _ :: es =>
    .cond_element small tail cont (some (p + small.length)) ::
      annotate_stream (p + small.length) es
  | .nbeg_element h :: es => .nbeg_element h :: annotate_stream p es
  | .nend_element _ :: es => .nend_element (some p) :: annotate_stream p es
  | .gbeg_element h :: es => .gbeg_element h :: annotate_stream p es
  | .gend_element _ :: es => .gend_element (some p) :: annotate_stream p es

/-- The annotator's final `position` after consuming a stream. -/
def annotate_position (p : Nat) : List stream_element_t → Nat
  | [] => p
  | .text_element s _ :: es => annotate_position (p + s.length) es
  | .cond_element small _ _ _ :: es => annotate_position (p + small.length) es
  | .nbeg_element _ :: es => annotate_position p es
  | .nend_element _ :: es => annotate_position p es
  | .gbeg_element _ :: es => annotate_position p es
  | .gend_element _ :: es => annotate_position p es

/-! ## Phase 3: `correct_gbeg_visitor_t`

Keeps a stack (`lookahead`) of per-group buffers.  Elements are
forwarded directly when the stack is empty and appended to the top
buffer otherwise (`maybe_push`).  A `GBeg` pushes a fresh buffer; a
`GEnd` with position `p` pops the top buffer `b` and flushes
`GBeg(p), b, GEnd(p)` either to the output (stack now empty) or onto
the new top buffer.  The `guarantee` calls (`hpos` set for
`TextE`/`CondE`/`NEnd`/`GEnd`, unset for `NBeg`/`GBeg`) and the
undefined `back()`/`pop_back()` on an empty `lookahead` are modelled
by `none`. -/

/-- One corrector run: `stk` is `lookahead` (head = top buffer,
buffers hold their events in order), `out` the events already pushed
to the next stage.  Returns the final stack and output. -/
def correct_run (stk : List (List stream_element_t)) (out : List stream_element_t) :
    List stream_element_t →
      Option (List (List stream_element_t) × List stream_element_t)
  | [] => some (stk, out)
  | .text_element s (some n) :: es =>
    match stk with
    | [] => correct_run [] (out ++ [.text_element s (some n)]) es
    | b :: bs => correct_run ((b ++ [.text_element s (some n)]) :: bs) out es
  | .text_element _ none :: _ => none
  | .cond_element sm tl cn (some n) :: es =>
    match stk with
    | [] => correct_run [] (out ++ [.cond_element sm tl cn (some n)]) es
    | b :: bs => correct_run ((b ++ [.cond_element sm tl cn (some n)]) :: bs) out es
  | .cond_element _ _ _ none :: _ => none
  | .nbeg_element none :: es =>
    match stk with
    | [] => correct_run [] (out ++ [.nbeg_element none]) es
    | b :: bs => correct_run ((b ++ [.nbeg_element none]) :: bs) out es
  | .nbeg_element (some _) :: _ => none
  | .nend_element (some n) :: es =>
    match stk with
    | [] => correct_run [] (out ++ [.nend_element (some n)]) es
    | b :: bs => correct_run ((b ++ [.nend_element (some n)]) :: bs) out es
  | .nend_element none :: _ => none
  | .gbeg_element none :: es => correct_run ([] :: stk) out es
  | .gbeg_element (some _) :: _ => none
  | .gend_element (some p) :: es =>
    match stk with
    | [] => none
    | b :: bs =>
      match bs with
      | [] =>
        correct_run []
          (out ++ .gbeg_element (some p) :: (b ++ [.gend_element (some p)])) es
      | b2 :: bs2 =>
        correct_run ((b2 ++ .gbeg_element (some p) :: (b ++ [.gend_element (some p)])) :: bs2)
          out es
  | .gend_element none :: _ => none

/-- `correct_gbeg_stream` as a list transformer: the events the
corrector pushes to the next stage (any unfinished buffers are simply
never flushed, as in the C++ object being destroyed). -/
def correct_gbeg (es : List stream_element_t) : Option (List stream_element_t) :=
  (correct_run [] [] es).map (·.2)

/-! ## Phase 4: `output_visitor_t` -/

/-- 2^32: the modulus of C++ `unsigned int` arithmetic. -/
def u32 : Nat := 4294967296

/-- `std::string(n, ' ')`. -/
def spaces (n : Nat) : String := String.mk (List.replicate n ' ')

/-- Mutable state of `output_visitor_t` (apart from the constant page
`width`, passed separately): the `fittingElements` counter, the
current `rightEdge`, the output column `hpos`, the `indent` stack
(head = `back()`), and the accumulated `result` string. -/
structure output_state where
  fittingElements : Nat
  rightEdge : Nat
  hpos : Nat
  indent : List Nat
  result : String
deriving DecidableEq

/-- Initial renderer state:
`fittingElements = 0, rightEdge = w, hpos = 0, indent = {}, result = ""`. -/
def init_state (w : Nat) : output_state :=
  { fittingElements := 0, rightEdge := w, hpos := 0, indent := [], result := "" }

/-- One step of `output_visitor_t`.
* `TextE`: append the payload, advance `hpos`.
* `CondE` with `fittingElements == 0`: append `tail`, newline,
  `indent.back()` spaces (0 if the stack is empty) and `cont`; set
  `hpos` to indent + cont length and recompute `rightEdge` by the
  unsigned-int expression `(width - hpos) + *(c.hpos)`, whose
  subtraction wraps modulo 2^32 when `hpos > width`; dereferencing an
  unset `c.hpos` is undefined (`none`).
* `CondE` with `fittingElements != 0`: append `small`.
* `GBeg`: if `fittingElements != 0` or the event's (32-bit cast)
  position fits within `rightEdge`, increment `fittingElements`,
  otherwise zero it; an unset `e.hpos` is undefined (`none`).
* `GEnd`: decrement `fittingElements` unless it is zero.
* `NBeg`: push the current `hpos` on `indent`.
* `NEnd`: pop `indent`; popping an empty stack is undefined (`none`). -/
def output_step (width : Nat) (st : output_state) :
    stream_element_t → Option output_state
  | .text_element s _ =>
    some { st with result := st.result ++ s, hpos := st.hpos + s.length }
  | .cond_element small tail cont h =>
    if st.fittingElements = 0 then
      match h with
      | none => none
      | some ch =>
        let currentIndent := st.indent.headD 0
        let hpos' := currentIndent + cont.length
        some { st with
          result := st.result ++ tail ++ "\n" ++ spaces currentIndent ++ cont,
          fittingElements := 0,
          hpos := hpos',
          rightEdge := ((width + u32 - hpos' % u32) % u32 + ch) % u32 }
    else
      some { st with result := st.result ++ small, hpos := st.hpos + small.length }
  | .gbeg_element h =>
    match h with
    | none => none
    | some gh =>
      if st.fittingElements ≠ 0 ∨ gh % u32 ≤ st.rightEdge then
        some { st with fittingElements := st.fittingElements + 1 }
      else
        some { st with fittingElements := 0 }
  | .gend_element _ =>
    some { st with
      fittingElements :=
        if st.fittingElements ≠ 0 then st.fittingElements - 1
        else st.fittingElements }
  | .nbeg_element _ => some { st with indent := st.hpos :: st.indent }
  | .nend_element _ =>
    match st.indent with
    | [] => none
    | _ :: is => some { st with indent := is }

/-- Run the renderer over a whole event list. -/
def output_run (width : Nat) (st : output_state) :
    List stream_element_t → Option output_state
  | [] => some st
  | e :: es =>
    match output_step width st e with
    | none => none
    | some st' => output_run width st' es

/-! ## Phase 5: `pretty_print` -/

/-- The assembled pipeline, exposing the renderer's final state. -/
def pretty_run (width : Nat) (doc : document_t) : Option output_state :=
  match correct_gbeg (annotate_stream 0 (generate_stream doc)) with
  | none => none
  | some s => output_run width (init_state width) s

/-- `pretty_print(width, doc)`: generate, annotate, correct, render,
and return the accumulated `result`.  The pipeline is total on streams
produced by the generator (see `pretty_run_total`); `getD ""` only
papers over states the C++ code reaches by undefined behaviour. -/
def pretty_print (width : Nat) (doc : document_t) : String :=
  ((pretty_run width doc).map (·.result)).getD ""

/-! ## Reference streams used in proofs

`gen_ann d p` is the stream the annotator emits for `d` when its
running position starts at `p`; `gen_corr d p` is the stream the
corrector then emits.  Both are proved equal to the actual pipeline
stages (`annotate_gen`, `correct_run_gen`); they exist so that
induction on the document can follow the stream's group structure. -/

mutual

/-- The annotated stream of a document, starting at position `p`. -/
def gen_ann : document_t → Nat → List stream_element_t
  | .text s, p => [.text_element s (some (p + s.length))]
  | .cond small cont tail, p =>
    [.cond_element small tail cont (some (p + small.length))]
  | .concat l, p => gen_ann_list l p
  | .group d, p =>
    .gbeg_element none :: gen_ann d p ++ [.gend_element (some (p + d.width))]
  | .nest d, p =>
    .nbeg_element none :: .gbeg_element none ::
      gen_ann d p ++
        [.gend_element (some (p + d.width)), .nend_element (some (p + d.width))]

/-- Annotated stream of a document list starting at position `p`. -/
def gen_ann_list : List document_t → Nat → List stream_element_t
  | [], _ => []
  | d :: ds, p => gen_ann d p ++ gen_ann_list ds (p + d.width)

end

mutual

/-- The corrected stream of a document, starting at position `p`: like
`gen_ann` but every `GBeg` now carries the position of its matching
`GEnd`. -/
def gen_corr : document_t → Nat → List stream_element_t
  | .text s, p => [.text_element s (some (p + s.length))]
  | .cond small cont tail, p =>
    [.cond_element small tail cont (some (p + small.length))]
  | .concat l, p => gen_corr_list l p
  | .group d, p =>
    .gbeg_element (some (p + d.width)) ::
      gen_corr d p ++ [.gend_element (some (p + d.width))]
  | .nest d, p =>
    .nbeg_element none :: .gbeg_element (some (p + d.width)) ::
      gen_corr d p ++
        [.gend_element (some (p + d.width)), .nend_element (some (p + d.width))]

/-- Corrected stream of a document list starting at position `p`. -/
def gen_corr_list : List document_t → Nat → List stream_element_t
  | [], _ => []
  | d :: ds, p => gen_corr d p ++ gen_corr_list ds (p + d.width)

end

/-- `maybe_push` applied to a whole block of events: events go to the
output when the `lookahead` stack is empty and onto the top buffer
otherwise. -/
def push_all (stk : List (List stream_element_t))
    (out new : List stream_element_t) :
    List (List stream_element_t) × List stream_element_t :=
  match stk with
  | [] => ([], out ++ new)
  | b :: bs => ((b ++ new) :: bs, out)

/-! ## Reference renderings and checkers used in theorem statements -/

mutual

/-- The flat rendering of a document: the concatenation, in stream
order, of every `text_t`'s string and every `cond_t`'s `small`. -/
def flat_concat : document_t → String
  | .text s => s
  | .cond small _ _ => small
  | .concat l => flat_concat_list l
  | .group d => flat_concat d
  | .nest d => flat_concat d

/-- Flat rendering of a document list. -/
def flat_concat_list : List document_t → String
  | [] => ""
  | d :: ds => flat_concat d ++ flat_concat_list ds

end

mutual

/-- `true` when a document contains no `group_t` and no `nest_t`, so
its stream contains no `GBeg` and the renderer's `fittingElements`
stays `0` throughout. -/
def group_nest_free : document_t → Bool
  | .text _ => true
  | .cond _ _ _ => true
  | .concat l => group_nest_free_list l
  | .group _ => false
  | .nest _ => false

/-- `group_nest_free` over a list of documents. -/
def group_nest_free_list : List document_t → Bool
  | [] => true
  | d :: ds => group_nest_free d && group_nest_free_list ds

end

mutual

/-- The all-break rendering of a group/nest-free document at indent 0:
every `cond_t` takes its break branch, contributing
`tail ++ "\n" ++ cont`. -/
def break_all_concat : document_t → String
  | .text s => s
  | .cond _ cont tail => tail ++ "\n" ++ cont
  | .concat l => break_all_concat_list l
  | .group _ => ""
  | .nest _ => ""

/-- All-break rendering of a document list. -/
def break_all_concat_list : List document_t → String
  | [] => ""
  | d :: ds => break_all_concat d ++ break_all_concat_list ds

end

mutual

/-- The output column after the all-break rendering of a
group/nest-free document, entered at column `h`: text advances the
column, a broken `cond_t` resets it to `cont.length` (indent is 0). -/
def break_all_hpos (h : Nat) : document_t → Nat
  | .text s => h + s.length
  | .cond _ cont _ => cont.length
  | .concat l => break_all_hpos_list h l
  | .group _ => h
  | .nest _ => h

/-- `break_all_hpos` over a document list. -/
def break_all_hpos_list (h : Nat) : List document_t → Nat
  | [] => h
  | d :: ds => break_all_hpos_list (break_all_hpos h d) ds

end

/-- Is the event an `NBeg`?  (`NBeg` is the one event kind that the
corrector's output invariant exempts from carrying `hpos`.) -/
def is_nbeg : stream_element_t → Bool
  | .nbeg_element _ => true
  | _ => false

/-- The `hpos` field of an event. -/
def hpos_of : stream_element_t → Option Nat
  | .text_element _ h => h
  | .cond_element _ _ _ h => h
  | .nbeg_element h => h
  | .nend_element h => h
  | .gbeg_element h => h
  | .gend_element h => h

/-- Checks that every event except `NBeg` carries a defined `hpos`. -/
def all_hpos_defined (es : List stream_element_t) : Bool :=
  es.all (fun e => is_nbeg e || (hpos_of e).isSome)

/-- Checks, with a stack of pending `GBeg` positions, that `GBeg`s and
`GEnd`s are properly balanced and that each `GBeg`'s `hpos` equals the
`hpos` of its matching `GEnd`. -/
def gbeg_matched (stk : List Nat) : List stream_element_t → Bool
  | [] => stk.isEmpty
  | .gbeg_element (some n) :: es => gbeg_matched (n :: stk) es
  | .gbeg_element none :: _ => false
  | .gend_element (some n) :: es =>
    match stk with
    | [] => false
    | t :: stk' => t == n && gbeg_matched stk' es
  | .gend_element none :: _ => false
  | .text_element _ _ :: es => gbeg_matched stk es
  | .cond_element _ _ _ _ :: es => gbeg_matched stk es
  | .nbeg_element _ :: es => gbeg_matched stk es
  | .nend_element _ :: es => gbeg_matched stk es

/-- Erase the `hpos` annotation of an event, recovering the event as
the generator emitted it. -/
def strip_hpos : stream_element_t → stream_element_t
  | .text_element s _ => .text_element s none
  | .cond_element sm tl cn _ => .cond_element sm tl cn none
  | .nbeg_element _ => .nbeg_element none
  | .nend_element _ => .nend_element none
  | .gbeg_element _ => .gbeg_element none
  | .gend_element _ => .gend_element none

/-- Checks that, starting from flat position `p`, every
`TextE`/`CondE`/`GEnd`/`NEnd` event's `hpos` equals the flat-layout
width of the stream prefix up to and including that event (`TextE`
advances the position by its payload, `CondE` by `small`). -/
def hpos_prefix_ok (p : Nat) : List stream_element_t → Bool
  | [] => true
  | .text_element s h :: es =>
    h == some (p + s.length) && hpos_prefix_ok (p + s.length) es
  | .cond_element sm _ _ h :: es =>
    h == some (p + sm.length) && hpos_prefix_ok (p + sm.length) es
  | .gend_element h :: es => h == some p && hpos_prefix_ok p es
  | .nend_element h :: es => h == some p && hpos_prefix_ok p es
  | .gbeg_element _ :: es => hpos_prefix_ok p es
  | .nbeg_element _ :: es => hpos_prefix_ok p es

/-- Number of newline characters in a string. -/
def count_nl (s : String) : Nat := s.data.count '\n'

mutual

/-- `true` when no `text_t` payload and no `cond_t` `small` in the
document contains a newline character, so the flat rendering is
newline-free. -/
def flat_newline_free : document_t → Bool
  | .text s => s.data.all (· ≠ '\n')
  | .cond small _ _ => small.data.all (· ≠ '\n')
  | .concat l => flat_newline_free_list l
  | .group d => flat_newline_free d
  | .nest d => flat_newline_free d

/-- `flat_newline_free` over a document list. -/
def flat_newline_free_list : List document_t → Bool
  | [] => true
  | d :: ds => flat_newline_free d && flat_newline_free_list ds

end

/-! ## Concrete documents used as counterexample inputs -/

/-- Counterexample input for monotonicity: two consecutive groups,
`group("aaaaaaaa" br)` (flat width 9) followed by
`group("c" br "d" br "e")` (flat width 5, ending at stream
position 14). -/
def doc_mono : document_t := make_concat
  [ make_group (make_concat [make_text "aaaaaaaa", br]),
    make_group (make_concat [make_text "c", br, make_text "d", br, make_text "e"]) ]

/-- Counterexample input for the `right_edge` update: a break whose
continuation (`indent 2` plus `cont` of length 6) lands past
`width + hpos`, making the unsigned subtraction wrap. -/
def doc_edge : document_t := make_concat
  [ make_text "ab",
    make_nest (make_concat [make_cond "" "cccccc" "", make_text "dd"]) ]

/-! ## Induction principle for `document_t`

`document_t` nests `List document_t`, so we derive once, by strong
induction on `sizeOf`, an induction principle whose `concat` case
provides the hypothesis for every member of the child list. -/

/-- Structural induction over `document_t` with a membership hypothesis
in the `concat` case. -/
theorem document_t.ind {P : document_t → Prop}
    (htext : ∀ s, P (.text s))
    (hcond : ∀ small cont tail, P (.cond small cont tail))
    (hconcat : ∀ l, (∀ d ∈ l, P d) → P (.concat l))
    (hgroup : ∀ d, P d → P (.group d))
    (hnest : ∀ d, P d → P (.nest d)) :
    ∀ d, P d := by
  have H : ∀ n (d : document_t), sizeOf d ≤ n → P d := by
    intro n
    induction n with
    | zero =>
      intro d hd
      cases d <;> simp_arith at hd
    | succ n ih =>
      intro d hd
      cases d with
      | text s => exact htext s
      | cond small cont tail => exact hcond small cont tail
      | concat l =>
        refine hconcat l (fun d hdl => ih d ?_)
        have h1 := List.sizeOf_lt_of_mem hdl
        simp only [document_t.concat.sizeOf_spec] at hd
        omega
      | group d =>
        refine hgroup d (ih d ?_)
        simp only [document_t.group.sizeOf_spec] at hd
        omega
      | nest d =>
        refine hnest d (ih d ?_)
        simp only [document_t.nest.sizeOf_spec] at hd
        omega
  exact fun d => H (sizeOf d) d (Nat.le_refl _)

/-! ## Phase lemmas: generator and annotator -/

/-- The annotator maps the generated stream of `d`, entered at
position `p`, to `gen_ann d p`, leaving the running position at
`p + width d` for the rest of the stream. -/
theorem annotate_stream_gen :
    ∀ (d : document_t) (p : Nat) (rest : List stream_element_t),
      annotate_stream p (generate_stream d ++ rest)
        = gen_ann d p ++ annotate_stream (p + d.width) rest := by
  refine document_t.ind ?_ ?_ ?_ ?_ ?_
  · intro s p rest
    simp [generate_stream, gen_ann, annotate_stream, document_t.width]
  · intro small cont tail p rest
    simp [generate_stream, gen_ann, annotate_stream, document_t.width]
  · intro l hl p rest
    simp only [generate_stream, gen_ann, document_t.width]
    induction l generalizing p with
    | nil => simp [generate_stream_list, gen_ann_list, document_t.widthList]
    | cons d ds ihl =>
      simp only [generate_stream_list, gen_ann_list, document_t.widthList,
        List.append_assoc]
      rw [hl d (by simp), ihl (fun d' hd' => hl d' (by simp [hd'])),
        Nat.add_assoc]
  · intro d hd p rest
    simp only [generate_stream, gen_ann, document_t.width, List.cons_append,
      List.append_assoc, List.singleton_append]
    rw [annotate_stream, hd, annotate_stream]
    simp
  · intro d hd p rest
    simp only [generate_stream, gen_ann, document_t.width, List.cons_append,
      List.append_assoc, List.singleton_append]
    rw [annotate_stream, annotate_stream, hd, annotate_stream, annotate_stream]
    simp

/-- The annotator's running position after the stream of `d` entered at
`p` is `p + width d`. -/
theorem annotate_position_gen :
    ∀ (d : document_t) (p : Nat) (rest : List stream_element_t),
      annotate_position p (generate_stream d ++ rest)
        = annotate_position (p + d.width) rest := by
  refine document_t.ind ?_ ?_ ?_ ?_ ?_
  · intro s p rest
    simp [generate_stream, annotate_position, document_t.width]
  · intro small cont tail p rest
    simp [generate_stream, annotate_position, document_t.width]
  · intro l hl p rest
    simp only [generate_stream, document_t.width]
    induction l generalizing p with
    | nil => simp [generate_stream_list, document_t.widthList]
    | cons d ds ihl =>
      simp only [generate_stream_list, document_t.widthList, List.append_assoc]
      rw [hl d (by simp), ihl (fun d' hd' => hl d' (by simp [hd'])), Nat.add_assoc]
  · intro d hd p rest
    simp only [generate_stream, document_t.width, List.cons_append,
      List.append_assoc, List.singleton_append]
    rw [annotate_position, hd, annotate_position]
    simp
  · intro d hd p rest
    simp only [generate_stream, document_t.width, List.cons_append,
      List.append_assoc, List.singleton_append]
    rw [annotate_position, annotate_position, hd, annotate_position,
      annotate_position]
    simp

/-! ## Phase lemmas: corrector -/

/-- Pushing a concatenation of blocks is pushing them one after the
other. -/
theorem push_all_append (stk : List (List stream_element_t))
    (out a b : List stream_element_t) :
    push_all stk out (a ++ b)
      = push_all (push_all stk out a).1 (push_all stk out a).2 b := by
  cases stk <;> simp [push_all]

/-- The corrector turns the annotated stream of `d` into the corrected
stream of `d`: every event of `gen_ann d p` passes its `guarantee`,
the lookahead stack is restored, and `gen_corr d p` is appended to the
output (stack empty) or the top buffer (stack non-empty). -/
theorem correct_run_gen :
    ∀ (d : document_t) (p : Nat) (stk : List (List stream_element_t))
      (out rest : List stream_element_t),
      correct_run stk out (gen_ann d p ++ rest)
        = correct_run (push_all stk out (gen_corr d p)).1
            (push_all stk out (gen_corr d p)).2 rest := by
  refine document_t.ind ?_ ?_ ?_ ?_ ?_
  · intro s p stk out rest
    cases stk <;> simp [gen_ann, gen_corr, correct_run, push_all]
  · intro small cont tail p stk out rest
    cases stk <;> simp [gen_ann, gen_corr, correct_run, push_all]
  · intro l hl p stk out rest
    simp only [gen_ann, gen_corr]
    induction l generalizing p stk out with
    | nil => cases stk <;> simp [gen_ann_list, gen_corr_list, push_all]
    | cons d ds ihl =>
      simp only [gen_ann_list, gen_corr_list, List.append_assoc]
      rw [hl d (by simp), ihl (fun d' hd' => hl d' (by simp [hd'])),
        push_all_append]
  · intro d hd p stk out rest
    simp only [gen_ann, gen_corr, List.cons_append, List.append_assoc,
      List.singleton_append]
    rw [correct_run, hd]
    simp only [push_all, List.nil_append]
    cases stk <;> simp [correct_run, push_all]
  · intro d hd p stk out rest
    simp only [gen_ann, gen_corr, List.cons_append, List.append_assoc,
      List.singleton_append]
    cases stk with
    | nil =>
      rw [correct_run, correct_run, hd]
      simp only [push_all, List.nil_append]
      simp [correct_run, push_all]
    | cons b bs =>
      rw [correct_run, correct_run, hd]
      simp only [push_all, List.nil_append]
      simp [correct_run, push_all]

/-- On the full pipeline, the corrector succeeds and emits exactly the
corrected stream `gen_corr doc 0`. -/
theorem correct_gbeg_pipeline (doc : document_t) :
    correct_gbeg (annotate_stream 0 (generate_stream doc))
      = some (gen_corr doc 0) := by
  have h1 : annotate_stream 0 (generate_stream doc) = gen_ann doc 0 := by
    have h := annotate_stream_gen doc 0 []
    simpa [annotate_stream] using h
  have h2 := correct_run_gen doc 0 [] [] []
  simp only [List.append_nil] at h2
  simp [correct_gbeg, h1, h2, push_all, correct_run]

/-! ## Phase lemmas: renderer -/

/-- Unfolding lemma: a successful step lets `output_run` continue with
the new state. -/
theorem output_run_cons_some (w : Nat) (st st1 : output_state)
    (e : stream_element_t) (es : List stream_element_t)
    (h : output_step w st e = some st1) :
    output_run w st (e :: es) = output_run w st1 es := by
  rw [output_run, h]

/-- The `GBeg` step always succeeds when `hpos` is set, and changes
only `fittingElements`. -/
theorem output_step_gbeg (w : Nat) (st : output_state) (gh : Nat) :
    ∃ st1 : output_state,
      output_step w st (.gbeg_element (some gh)) = some st1 ∧
        st1.indent = st.indent ∧ st1.rightEdge = st.rightEdge ∧
        st1.hpos = st.hpos ∧ st1.result = st.result := by
  by_cases hc : st.fittingElements ≠ 0 ∨ gh % u32 ≤ st.rightEdge
  · exact ⟨{ st with fittingElements := st.fittingElements + 1 },
      by simp [output_step, hc], rfl, rfl, rfl, rfl⟩
  · exact ⟨{ st with fittingElements := 0 },
      by simp [output_step, hc], rfl, rfl, rfl, rfl⟩

/-- The `CondE` step always succeeds when `hpos` is set, and does not
touch the `indent` stack. -/
theorem output_step_cond (w : Nat) (st : output_state)
    (small tail cont : String) (ch : Nat) :
    ∃ st1 : output_state,
      output_step w st (.cond_element small tail cont (some ch)) = some st1 ∧
        st1.indent = st.indent := by
  by_cases hf : st.fittingElements = 0
  · refine ⟨{ st with
        result := st.result ++ tail ++ "\n" ++ spaces (st.indent.headD 0) ++ cont,
        fittingElements := 0,
        hpos := st.indent.headD 0 + cont.length,
        rightEdge :=
          ((w + u32 - (st.indent.headD 0 + cont.length) % u32) % u32 + ch) % u32 },
      ?_, rfl⟩
    simp [output_step, hf]
  · exact ⟨{ st with result := st.result ++ small, hpos := st.hpos + small.length },
      by simp [output_step, hf], rfl⟩

/-- The renderer never gets stuck on a corrected stream: every event
of `gen_corr d p` is processed successfully (in particular every
`CondE`/`GBeg` carries the `hpos` it dereferences and every `NEnd`
finds a non-empty `indent` stack), and the `indent` stack is restored
afterwards. -/
theorem output_run_gen_total :
    ∀ (d : document_t) (p w : Nat) (st : output_state)
      (rest : List stream_element_t),
      ∃ st' : output_state, st'.indent = st.indent ∧
        output_run w st (gen_corr d p ++ rest) = output_run w st' rest := by
  refine document_t.ind ?_ ?_ ?_ ?_ ?_
  · intro s p w st rest
    exact ⟨{ st with result := st.result ++ s, hpos := st.hpos + s.length },
      rfl, by simp [gen_corr, output_run, output_step]⟩
  · intro small cont tail p w st rest
    obtain ⟨st1, hstep, hind1⟩ :=
      output_step_cond w st small tail cont (p + small.length)
    refine ⟨st1, hind1, ?_⟩
    simp only [gen_corr, List.cons_append, List.nil_append]
    rw [output_run_cons_some w st st1 _ _ hstep]
  · intro l hl p w st rest
    simp only [gen_corr]
    induction l generalizing p st with
    | nil => exact ⟨st, rfl, by simp [gen_corr_list]⟩
    | cons d ds ihl =>
      simp only [gen_corr_list, List.append_assoc]
      obtain ⟨st1, hind1, hrun1⟩ := hl d (by simp) p w st
        (gen_corr_list ds (p + d.width) ++ rest)
      rw [hrun1]
      obtain ⟨st2, hind2, hrun2⟩ :=
        ihl (fun d' hd' => hl d' (by simp [hd'])) (p + d.width) st1
      rw [hrun2]
      exact ⟨st2, hind2.trans hind1, rfl⟩
  · intro d hd p w st rest
    simp only [gen_corr, List.cons_append, List.append_assoc,
      List.singleton_append, List.nil_append]
    obtain ⟨st1, hstep, hind1, _, _, _⟩ := output_step_gbeg w st (p + d.width)
    rw [output_run_cons_some w st st1 _ _ hstep]
    obtain ⟨st2, hind2, hrun2⟩ := hd p w st1
      (.gend_element (some (p + d.width)) :: rest)
    rw [hrun2]
    rw [output_run_cons_some w st2
      { st2 with fittingElements :=
          if st2.fittingElements ≠ 0 then st2.fittingElements - 1
          else st2.fittingElements } _ _ (by simp [output_step])]
    refine ⟨_, ?_, rfl⟩
    simpa using hind2.trans hind1
  · intro d hd p w st rest
    simp only [gen_corr, List.cons_append, List.append_assoc,
      List.singleton_append, List.nil_append]
    rw [output_run_cons_some w st { st with indent := st.hpos :: st.indent }
      _ _ (by simp [output_step])]
    obtain ⟨st1, hstep, hind1, _, _, _⟩ :=
      output_step_gbeg w { st with indent := st.hpos :: st.indent } (p + d.width)
    rw [output_run_cons_some w _ st1 _ _ hstep]
    obtain ⟨st2, hind2, hrun2⟩ := hd p w st1
      (.gend_element (some (p + d.width)) ::
        .nend_element (some (p + d.width)) :: rest)
    rw [hrun2]
    have hind2' : st2.indent = st.hpos :: st.indent := by
      simpa using hind2.trans hind1
    rw [output_run_cons_some w st2
      { st2 with fittingElements :=
          if st2.fittingElements ≠ 0 then st2.fittingElements - 1
          else st2.fittingElements } _ _ (by simp [output_step])]
    rw [output_run_cons_some w _
      { st2 with
          fittingElements :=
            if st2.fittingElements ≠ 0 then st2.fittingElements - 1
            else st2.fittingElements,
          indent := st.indent } _ _
      (by simp only [output_step, hind2'])]
    exact ⟨{ st2 with
        fittingElements :=
          if st2.fittingElements ≠ 0 then st2.fittingElements - 1
          else st2.fittingElements,
        indent := st.indent }, rfl, rfl⟩

/-- Flat rendering: inside at least one fitting group
(`fittingElements ≠ 0`), the renderer appends exactly the flat
rendering of the document, advances `hpos` by its width, and leaves
`fittingElements`, `rightEdge` and `indent` unchanged. -/
theorem output_run_gen_flat :
    ∀ (d : document_t) (p w : Nat) (st : output_state)
      (rest : List stream_element_t),
      st.fittingElements ≠ 0 →
      output_run w st (gen_corr d p ++ rest)
        = output_run w
            { st with result := st.result ++ flat_concat d,
                      hpos := st.hpos + d.width } rest := by
  refine document_t.ind ?_ ?_ ?_ ?_ ?_
  · intro s p w st rest _
    simp only [gen_corr, flat_concat, document_t.width, List.cons_append,
      List.nil_append]
    rw [output_run_cons_some w st
      { st with result := st.result ++ s, hpos := st.hpos + s.length } _ _
      (by simp [output_step])]
  · intro small cont tail p w st rest hf
    simp only [gen_corr, flat_concat, document_t.width, List.cons_append,
      List.nil_append]
    rw [output_run_cons_some w st
      { st with result := st.result ++ small, hpos := st.hpos + small.length }
      _ _ (by simp [output_step, hf])]
  · intro l hl p w st rest hf
    simp only [gen_corr, flat_concat, document_t.width]
    induction l generalizing p st with
    | nil =>
      simp [gen_corr_list, flat_concat_list, document_t.widthList,
        String.append_empty]
    | cons d ds ihl =>
      simp only [gen_corr_list, flat_concat_list, document_t.widthList,
        List.append_assoc]
      rw [hl d (by simp) p w st _ hf]
      rw [ihl (fun d' hd' => hl d' (by simp [hd'])) (p + d.width)
        { st with result := st.result ++ flat_concat d,
                  hpos := st.hpos + d.width }
        (by simpa using hf)]
      simp only [String.append_assoc, Nat.add_assoc]
  · intro d hd p w st rest hf
    simp only [gen_corr, flat_concat, document_t.width, List.cons_append,
      List.append_assoc, List.singleton_append, List.nil_append]
    rw [output_run_cons_some w st
      { st with fittingElements := st.fittingElements + 1 } _ _
      (by simp [output_step, hf])]
    rw [hd p w _ _ (by simp)]
    rw [output_run_cons_some w _
      { st with result := st.result ++ flat_concat d,
                hpos := st.hpos + d.width } _ _
      (by simp [output_step])]
  · intro d hd p w st rest hf
    simp only [gen_corr, flat_concat, document_t.width, List.cons_append,
      List.append_assoc, List.singleton_append, List.nil_append]
    rw [output_run_cons_some w st { st with indent := st.hpos :: st.indent }
      _ _ (by simp [output_step])]
    rw [output_run_cons_some w _
      { st with indent := st.hpos :: st.indent,
                fittingElements := st.fittingElements + 1 } _ _
      (by simp [output_step, hf])]
    rw [hd p w _ _ (by simp)]
    rw [output_run_cons_some w _
      { st with indent := st.hpos :: st.indent,
                result := st.result ++ flat_concat d,
                hpos := st.hpos + d.width } _ _
      (by simp [output_step])]
    rw [output_run_cons_some w _
      { st with result := st.result ++ flat_concat d,
                hpos := st.hpos + d.width } _ _
      (by simp [output_step])]

/-! ## Top-level pipeline lemmas -/

/-- The pipeline always reaches the end of the stream: its guarantees
hold, the corrector's lookahead stack is non-empty at every `GEnd`,
and the renderer's `indent` stack is non-empty at every `NEnd`. -/
theorem pretty_run_total (w : Nat) (d : document_t) :
    ∃ st : output_state, pretty_run w d = some st := by
  simp only [pretty_run, correct_gbeg_pipeline]
  obtain ⟨st', _, hrun⟩ := output_run_gen_total d 0 w (init_state w) []
  refine ⟨st', ?_⟩
  rw [← List.append_nil (gen_corr d 0)]
  exact hrun

/-- Flat fit for grouped documents: if the whole (grouped) document
fits, the output is exactly the flat rendering. -/
theorem pretty_print_flat_fit (d : document_t) (w : Nat) (h : d.width ≤ w) :
    pretty_print w (.group d) = flat_concat d := by
  have hle : d.width % u32 ≤ w := le_trans (Nat.mod_le _ _) h
  simp only [pretty_print, pretty_run, correct_gbeg_pipeline]
  simp only [gen_corr, List.cons_append]
  have hstep : output_step w (init_state w)
      (.gbeg_element (some (0 + d.width)))
        = some { init_state w with fittingElements := 1 } := by
    simp [output_step, init_state, hle]
  have h1 : output_run w (init_state w)
      (.gbeg_element (some (0 + d.width)) ::
        (gen_corr d 0 ++ [.gend_element (some (0 + d.width))]))
        = output_run w { init_state w with fittingElements := 1 }
            (gen_corr d 0 ++ [.gend_element (some (0 + d.width))]) :=
    output_run_cons_some w (init_state w)
      { init_state w with fittingElements := 1 }
      (.gbeg_element (some (0 + d.width)))
      (gen_corr d 0 ++ [.gend_element (some (0 + d.width))]) hstep
  rw [h1]
  rw [output_run_gen_flat d 0 w _ _ (by simp)]
  simp [output_run, output_step, init_state, String.empty_append]

/-- Splitting `count_nl` over appends. -/
theorem count_nl_append (a b : String) :
    count_nl (a ++ b) = count_nl a + count_nl b := by
  simp [count_nl, String.data_append, List.count_append]

/-- A newline-free string has `count_nl` zero. -/
theorem count_nl_eq_zero_of_all (s : String)
    (h : s.data.all (fun c => c ≠ '\n') = true) : count_nl s = 0 := by
  rw [count_nl, List.count_eq_zero]
  intro hmem
  have h2 := List.all_eq_true.mp h '\n' hmem
  simp at h2

/-- `flat_newline_free` documents have newline-free flat renderings. -/
theorem count_nl_flat_concat :
    ∀ d : document_t, flat_newline_free d = true →
      count_nl (flat_concat d) = 0 := by
  refine document_t.ind ?_ ?_ ?_ ?_ ?_
  · intro s h
    exact count_nl_eq_zero_of_all s h
  · intro small cont tail h
    exact count_nl_eq_zero_of_all small h
  · intro l hl h
    simp only [flat_newline_free, flat_concat] at *
    induction l with
    | nil => simp [flat_concat_list, count_nl]
    | cons d ds ihl =>
      simp only [flat_newline_free_list, Bool.and_eq_true] at h
      simp only [flat_concat_list, count_nl_append]
      rw [hl d (by simp) h.1, ihl (fun d' hd' h' => hl d' (by simp [hd']) h') h.2]
  · intro d hd h
    simpa [flat_newline_free, flat_concat] using hd h
  · intro d hd h
    simpa [flat_newline_free, flat_concat] using hd h

/-- `spaces 0` is the empty string. -/
theorem spaces_zero : spaces 0 = "" := rfl

/-- Break-everything rendering: in a document with no groups and no
nests, `fittingElements` stays 0 and `indent` stays empty, so every
`cond_t` takes its break branch with indent 0; the renderer appends
`break_all_concat d` and tracks `break_all_hpos`. -/
theorem output_run_gen_brk :
    ∀ (d : document_t), group_nest_free d = true →
      ∀ (p w : Nat) (st : output_state) (rest : List stream_element_t),
        st.fittingElements = 0 → st.indent = [] →
        ∃ re' : Nat,
          output_run w st (gen_corr d p ++ rest)
            = output_run w
                { st with result := st.result ++ break_all_concat d,
                          hpos := break_all_hpos st.hpos d,
                          rightEdge := re' } rest := by
  refine document_t.ind ?_ ?_ ?_ ?_ ?_
  · intro s _ p w st rest _ _
    refine ⟨st.rightEdge, ?_⟩
    simp only [gen_corr, break_all_concat, break_all_hpos, List.cons_append,
      List.nil_append]
    rw [output_run_cons_some w st
      { st with result := st.result ++ s, hpos := st.hpos + s.length,
                rightEdge := st.rightEdge } _ _ (by simp [output_step])]
  · intro small cont tail _ p w st rest hf hind
    refine ⟨((w + u32 - cont.length % u32) % u32 + (p + small.length)) % u32, ?_⟩
    simp only [gen_corr, break_all_concat, break_all_hpos, List.cons_append,
      List.nil_append]
    have hstep : output_step w st
        (.cond_element small tail cont (some (p + small.length)))
          = some { st with
              result := st.result ++ (tail ++ "\n" ++ cont),
              hpos := cont.length,
              rightEdge :=
                ((w + u32 - cont.length % u32) % u32 + (p + small.length)) % u32 } := by
      simp [output_step, hf, hind, spaces_zero, String.append_empty,
        String.append_assoc]
    rw [output_run_cons_some w st _ _ _ hstep]
  · intro l hl hfree p w st rest hf hind
    simp only [gen_corr, break_all_concat, break_all_hpos]
    simp only [group_nest_free] at hfree
    induction l generalizing p st with
    | nil =>
      refine ⟨st.rightEdge, ?_⟩
      simp only [gen_corr_list, break_all_concat_list, break_all_hpos_list,
        List.nil_append]
      simp [String.append_empty]
    | cons d ds ihl =>
      simp only [group_nest_free_list, Bool.and_eq_true] at hfree
      simp only [gen_corr_list, break_all_concat_list, break_all_hpos_list,
        List.append_assoc]
      obtain ⟨re1, hrun1⟩ := hl d (by simp) hfree.1 p w st
        (gen_corr_list ds (p + d.width) ++ rest) hf hind
      rw [hrun1]
      obtain ⟨re2, hrun2⟩ := ihl (fun d' hd' => hl d' (by simp [hd']))
        hfree.2 (p + d.width)
        { st with result := st.result ++ break_all_concat d,
                  hpos := break_all_hpos st.hpos d, rightEdge := re1 }
        (by simpa using hf) (by simpa using hind)
      rw [hrun2]
      exact ⟨re2, by simp [String.append_assoc]⟩
  · intro d _ hfree
    simp [group_nest_free] at hfree
  · intro d _ hfree
    simp [group_nest_free] at hfree

/-! ## Corrected-stream invariant lemmas (checkers) -/

/-- Every event of the corrected stream except `NBeg` carries `hpos`. -/
theorem all_hpos_defined_gen_corr :
    ∀ (d : document_t) (p : Nat), all_hpos_defined (gen_corr d p) = true := by
  refine document_t.ind ?_ ?_ ?_ ?_ ?_
  · intro s p
    simp [gen_corr, all_hpos_defined, is_nbeg, hpos_of]
  · intro small cont tail p
    simp [gen_corr, all_hpos_defined, is_nbeg, hpos_of]
  · intro l hl p
    simp only [gen_corr]
    induction l generalizing p with
    | nil => simp [gen_corr_list, all_hpos_defined]
    | cons d ds ihl =>
      simp only [gen_corr_list, all_hpos_defined, List.all_append,
        Bool.and_eq_true]
      exact ⟨hl d (by simp) p, ihl (fun d' hd' => hl d' (by simp [hd'])) _⟩
  · intro d hd p
    simpa [gen_corr, all_hpos_defined, is_nbeg, hpos_of] using hd p
  · intro d hd p
    simpa [gen_corr, all_hpos_defined, is_nbeg, hpos_of] using hd p

/-- In the corrected stream, `GBeg`s and `GEnd`s are balanced and each
`GBeg`'s `hpos` equals the `hpos` of its matching `GEnd`. -/
theorem gbeg_matched_gen_corr :
    ∀ (d : document_t) (p : Nat) (stk : List Nat)
      (rest : List stream_element_t),
      gbeg_matched stk (gen_corr d p ++ rest) = gbeg_matched stk rest := by
  refine document_t.ind ?_ ?_ ?_ ?_ ?_
  · intro s p stk rest
    simp [gen_corr, gbeg_matched]
  · intro small cont tail p stk rest
    simp [gen_corr, gbeg_matched]
  · intro l hl p stk rest
    simp only [gen_corr]
    induction l generalizing p stk with
    | nil => simp [gen_corr_list]
    | cons d ds ihl =>
      simp only [gen_corr_list, List.append_assoc]
      rw [hl d (by simp), ihl (fun d' hd' => hl d' (by simp [hd']))]
  · intro d hd p stk rest
    simp only [gen_corr, List.cons_append, List.append_assoc,
      List.singleton_append]
    rw [gbeg_matched, hd]
    simp [gbeg_matched]
  · intro d hd p stk rest
    simp only [gen_corr, List.cons_append, List.append_assoc,
      List.singleton_append]
    rw [gbeg_matched, gbeg_matched, hd]
    simp [gbeg_matched]

/-- Erasing the corrected stream's annotations recovers exactly the
generated stream: the corrector emits the events in their original
order (each `GBeg`, re-created with its group's final position, stays
in front of its group's buffered contents). -/
theorem strip_hpos_gen_corr :
    ∀ (d : document_t) (p : Nat),
      (gen_corr d p).map strip_hpos = generate_stream d := by
  refine document_t.ind ?_ ?_ ?_ ?_ ?_
  · intro s p
    simp [gen_corr, generate_stream, strip_hpos]
  · intro small cont tail p
    simp [gen_corr, generate_stream, strip_hpos]
  · intro l hl p
    simp only [gen_corr, generate_stream]
    induction l generalizing p with
    | nil => simp [gen_corr_list, generate_stream_list]
    | cons d ds ihl =>
      simp only [gen_corr_list, generate_stream_list, List.map_append]
      rw [hl d (by simp), ihl (fun d' hd' => hl d' (by simp [hd']))]
  · intro d hd p
    simp [gen_corr, generate_stream, strip_hpos, hd]
  · intro d hd p
    simp [gen_corr, generate_stream, strip_hpos, hd]

/-- The annotator always records the running flat position: on any
input stream, each emitted `TextE`/`CondE`/`GEnd`/`NEnd` carries as
`hpos` the flat width of the emitted prefix up to and including that
event. -/
theorem hpos_prefix_ok_annotate :
    ∀ (es : List stream_element_t) (p : Nat),
      hpos_prefix_ok p (annotate_stream p es) = true := by
  intro es
  induction es with
  | nil => intro p; simp [annotate_stream, hpos_prefix_ok]
  | cons e es ih =>
    intro p
    cases e <;> simp [annotate_stream, hpos_prefix_ok, ih]

/-! ## Claims -/

/-- C1 (counterexample): the flat-fit claim fails as stated.  The
singleton `br = cond(" ", "", "")` has width `1 ≤ 1`, but
`pretty_print(1, br)` is `"\n"`: a top-level `Cond` outside any group
is processed with `fittingElements = 0` and breaks, so the output has
a newline and is not the concatenation `" "` of the stream's `small`
strings. -/
theorem C1_cex :
    document_t.width br ≤ 1 ∧
      pretty_print 1 br ≠ flat_concat br ∧
      count_nl (pretty_print 1 br) ≠ 0 ∧
      pretty_print 1 br = "\n" := by
  decide

/-- C1 (amended): for every document `d` and width `W` with
`width(d) ≤ W`, `pretty_print(W, group(d))` — the document wrapped in
a group, so that the renderer enters it with a fitting group open —
equals the concatenation, in stream order, of every Text's string and
every Cond's `small`; it contains no newline provided no Text payload
or Cond `small` contains one. -/
theorem C1_flat_fit (d : document_t) (W : Nat) (h : d.width ≤ W) :
    pretty_print W (make_group d) = flat_concat d ∧
      (flat_newline_free d = true →
        count_nl (pretty_print W (make_group d)) = 0) := by
  have h1 : pretty_print W (make_group d) = flat_concat d :=
    pretty_print_flat_fit d W h
  exact ⟨h1, fun hfree => by rw [h1]; exact count_nl_flat_concat d hfree⟩

/-- C1 (witness): the amended flat-fit claim at `d = text("hi")`,
`W = 2`. -/
theorem C1_flat_fit_w :
    pretty_print 2 (make_group (make_text "hi")) = "hi" ∧
      count_nl (pretty_print 2 (make_group (make_text "hi"))) = 0 := by
  have h := C1_flat_fit (make_text "hi") 2 (by decide)
  exact ⟨h.1.trans (by decide), h.2 (by decide)⟩

/-- C2: after the corrector stage, every event except `NBeg` carries a
defined `hpos`; `GBeg`/`GEnd` events are balanced with each `GBeg`'s
`hpos` equal to its matching `GEnd`'s `hpos`; and erasing the
annotations recovers exactly the generated stream, so events reach the
renderer in their original emission order with each `GBeg` in front of
its group's buffered contents. -/
theorem C2_corrector_invariants (d : document_t) :
    ∃ s : List stream_element_t,
      correct_gbeg (annotate_stream 0 (generate_stream d)) = some s ∧
        all_hpos_defined s = true ∧
        gbeg_matched [] s = true ∧
        s.map strip_hpos = generate_stream d := by
  refine ⟨gen_corr d 0, correct_gbeg_pipeline d,
    all_hpos_defined_gen_corr d 0, ?_, strip_hpos_gen_corr d 0⟩
  have h := gbeg_matched_gen_corr d 0 [] []
  simpa [gbeg_matched, List.isEmpty] using h

/-- C3 (counterexample): the break-branch `right_edge` update is
32-bit wrap-around, not the claimed `(width - hpos) + h`.  At
`width = 3`, in the state reached by `pretty_print 3 doc_edge` just
before its `CondE` (indent stack `[2]`, `cont = "cccccc"`), the break
sets `hpos = 8 > 3 = width` and the C++ unsigned subtraction wraps:
`right_edge` becomes `2^32 - 3 = 4294967293`, while the claimed
formula gives `(3 - 8) + 2 = 2` over ℕ and `-3` over ℤ.  The final
conjunct shows the wrapped state is reached by an actual
`pretty_print` run. -/
theorem C3_cex :
    output_step 3 ⟨0, 3, 2, [2], "ab"⟩
        (.cond_element "" "" "cccccc" (some 2))
        = some ⟨0, 4294967293, 8, [2], "ab\n  cccccc"⟩ ∧
      (4294967293 : Nat) ≠ 3 - 8 + 2 ∧
      ((3 : Int) - 8) + 2 < 0 ∧
      pretty_run 3 doc_edge = some ⟨0, 4294967293, 10, [], "ab\n  ccccccdd"⟩ := by
  decide

/-- C3 (amended): when the renderer processes a `CondE` with annotated
position `h` while `fittingElements = 0`, it appends `tail`, a
newline, `indent.back()` spaces (0 if the stack is empty) and `cont`;
afterwards `hpos = top_indent + len(cont)` and `right_edge` is
`(width - hpos) + h` computed in 32-bit wrap-around arithmetic, which
equals `width + h - hpos` whenever `hpos ≤ width + h` and no 32-bit
overflow intervenes. -/
theorem C3_break_step (w : Nat) (st : output_state)
    (small tail cont : String) (ch : Nat)
    (hf : st.fittingElements = 0) :
    output_step w st (.cond_element small tail cont (some ch))
        = some { st with
            result := st.result ++ tail ++ "\n" ++
              spaces (st.indent.headD 0) ++ cont,
            fittingElements := 0,
            hpos := st.indent.headD 0 + cont.length,
            rightEdge :=
              ((w + u32 - (st.indent.headD 0 + cont.length) % u32) % u32 + ch)
                % u32 } ∧
      (st.indent.headD 0 + cont.length ≤ w + ch →
        st.indent.headD 0 + cont.length < u32 → w < u32 →
        w + ch - (st.indent.headD 0 + cont.length) < u32 →
        ((w + u32 - (st.indent.headD 0 + cont.length) % u32) % u32 + ch) % u32
          = w + ch - (st.indent.headD 0 + cont.length)) := by
  constructor
  · simp [output_step, hf]
  · intro h1 h2 h3 h4
    simp only [u32] at *
    omega

/-- C3 (witness): the amended break step at a concrete state with
`width = 5`, indent stack empty, `tail = ","`, `cont = "y"`,
`h = 4`: the output gains `",\ny"`, `hpos` becomes 1 and `right_edge`
becomes `5 + 4 - 1 = 8`. -/
theorem C3_break_step_w :
    output_step 5 ⟨0, 5, 3, [], "x"⟩ (.cond_element " " "," "y" (some 4))
        = some ⟨0, 8, 1, [], "x,\ny"⟩ ∧
      ((5 + u32 - (0 + 1) % u32) % u32 + 4) % u32 = 8 := by
  have h := C3_break_step 5 ⟨0, 5, 3, [], "x"⟩ " " "," "y" 4 rfl
  refine ⟨h.1.trans (by decide), ?_⟩
  have h2 := h.2 (by decide) (by decide) (by decide) (by decide)
  simpa using h2

/-- C4 (counterexample): `width = 0` does not force every `Cond` to
break.  In `group(cond("", "x", ""))` the group's flat end position is
`0 ≤ 0 = right_edge`, so the group is judged fitting and its `Cond`
renders the flat `small` form: the output is `""` with no newline,
whereas the break branch (taken by the same ungrouped `Cond`) would
produce `"\nx"`. -/
theorem C4_cex :
    pretty_print 0 (make_group (make_cond "" "x" "")) = "" ∧
      count_nl (pretty_print 0 (make_group (make_cond "" "x" ""))) = 0 ∧
      pretty_print 0 (make_cond "" "x" "") = "\nx" := by
  decide

/-- C4 (amended): `width = 0` is permitted — the pipeline succeeds on
every document — and every `Cond` processed with no enclosing fitting
group takes its break branch: in particular, on any document with no
`Group` and no `Nest` the width-0 output breaks every `Cond`
(`break_all_concat`).  A `Cond` inside a group judged to fit — which
at width 0 happens for zero-flat-width groups, and can also follow a
`right_edge` wrap-around — renders its flat `small` form instead. -/
theorem C4_width_zero :
    (∀ d : document_t, ∃ st : output_state, pretty_run 0 d = some st) ∧
      (∀ d : document_t, group_nest_free d = true →
        pretty_print 0 d = break_all_concat d) := by
  constructor
  · exact fun d => pretty_run_total 0 d
  · intro d hfree
    simp only [pretty_print, pretty_run, correct_gbeg_pipeline]
    obtain ⟨re', hrun⟩ :=
      output_run_gen_brk d hfree 0 0 (init_state 0) [] rfl rfl
    rw [← List.append_nil (gen_corr d 0), hrun]
    simp [output_run, init_state, String.empty_append]

/-- C4 (witness): at width 0, the group-free document
`cond(" ", "x", "y")` takes its break branch: tail `"y"`, newline,
cont `"x"`. -/
theorem C4_width_zero_w :
    pretty_print 0 (make_cond " " "x" "y") = "y\nx" := by
  have h := C4_width_zero.2 (make_cond " " "x" "y") rfl
  exact h.trans (by decide)

/-- C5: `pretty_print(3, funcall("f", [text("a"), text("b")]))` is
exactly `"f(a,\n  b)"`: the outer group fails to fit at width 3, the
comma's `br` breaks, and the `nest` (opened after `"f("` at output
column 2) anchors the continuation indent at column 2. -/
theorem C5_funcall_scenario :
    pretty_print 3 (funcall "f" [make_text "a", make_text "b"])
      = "f(a,\n  b)" := by
  decide

/-- C6 (counterexample): newline-count monotonicity in the width fails.
On `doc_mono`, width 9 lets the first group fit, so no break re-bases
`right_edge` and the second group (ending at stream position 14 > 9)
breaks twice; at the smaller width 8 the first group breaks, the break
re-bases `right_edge` to `8 + 9 = 17 ≥ 14`, the second group is judged
fitting, and only one newline is emitted. -/
theorem C6_cex :
    (8 : Nat) ≤ 9 ∧
      count_nl (pretty_print 9 doc_mono) = 2 ∧
      count_nl (pretty_print 8 doc_mono) = 1 ∧
      ¬ count_nl (pretty_print 9 doc_mono) ≤ count_nl (pretty_print 8 doc_mono) := by
  decide

/-- C6 (amended): monotonicity holds in the flat-fit regime: if
`W2 ≤ W1`, the document fits at `W1` (`width(d) ≤ W1`), the document
is wrapped in a group, and no Text payload or Cond `small` contains a
newline, then `pretty_print(W1, group d)` has no newline at all, hence
at most as many as `pretty_print(W2, group d)`. -/
theorem C6_monotonic_flat (d : document_t) (W1 W2 : Nat)
    (_hw : W2 ≤ W1) (hfit : d.width ≤ W1) (hfree : flat_newline_free d = true) :
    count_nl (pretty_print W1 (make_group d))
      ≤ count_nl (pretty_print W2 (make_group d)) := by
  have h1 : pretty_print W1 (make_group d) = flat_concat d :=
    pretty_print_flat_fit d W1 hfit
  rw [h1, count_nl_flat_concat d hfree]
  exact Nat.zero_le _

/-- C6 (witness): the amended monotonicity at `d = text("a")`,
`W1 = 5`, `W2 = 0`. -/
theorem C6_monotonic_flat_w :
    count_nl (pretty_print 5 (make_group (make_text "a")))
      ≤ count_nl (pretty_print 0 (make_group (make_text "a"))) :=
  C6_monotonic_flat (make_text "a") 5 0 (by decide) (by decide) (by decide)

/-- C7: a `CondE` processed while `fittingElements ≠ 0` appends only
its `small` string (and advances `hpos` by its length): `tail` is
never appended in flat mode, so it is exclusively a break-time
appendage. -/
theorem C7_flat_cond_step (w : Nat) (st : output_state)
    (small tail cont : String) (hp : Option Nat)
    (hf : st.fittingElements ≠ 0) :
    output_step w st (.cond_element small tail cont hp)
      = some { st with result := st.result ++ small,
                       hpos := st.hpos + small.length } := by
  simp [output_step, hf]

/-- C7 (witness): the flat `CondE` step at a concrete fitting state:
only `small = " "` is appended, not `tail = ","`. -/
theorem C7_flat_cond_step_w :
    output_step 5 ⟨1, 5, 0, [], ""⟩ (.cond_element " " "," "y" none)
      = some ⟨1, 5, 1, [], " "⟩ := by
  have h := C7_flat_cond_step 5 ⟨1, 5, 0, [], ""⟩ " " "," "y" none (by decide)
  exact h.trans (by decide)

/-- C8: the `GEnd` step decrements `fittingElements` only when it is
non-zero: it never fails, it acts as truncated decrement (so the
counter, a `Nat`, never underflows), and when `fittingElements = 0`
it is a no-op — the state is returned unchanged. -/
theorem C8_gend_clamp (w : Nat) (st : output_state) (hp : Option Nat) :
    output_step w st (.gend_element hp)
        = some { st with fittingElements := st.fittingElements - 1 } ∧
      (st.fittingElements = 0 → output_step w st (.gend_element hp) = some st) := by
  obtain ⟨f, re, hpos, ind, res⟩ := st
  constructor
  · by_cases hf : f = 0 <;> simp [output_step, hf]
  · intro h
    simp only at h
    subst h
    simp [output_step]

/-- C8 (witness): a `GEnd` arriving with `fittingElements = 0` leaves
the concrete state unchanged. -/
theorem C8_gend_clamp_w :
    output_step 7 ⟨0, 7, 0, [], ""⟩ (.gend_element none)
      = some ⟨0, 7, 0, [], ""⟩ :=
  (C8_gend_clamp 7 ⟨0, 7, 0, [], ""⟩ none).2 rfl

/-- C9: for every document, the generated stream is properly balanced,
so the whole pipeline runs to completion: the corrector succeeds
(its `guarantee`s hold and `lookahead.back()`/`pop_back()` at every
`GEnd` act on a non-empty stack — a failure is modelled as `none`) and
the renderer succeeds (`indent.pop_back()` at every `NEnd` acts on a
non-empty stack). -/
theorem C9_pipeline_safety (w : Nat) (d : document_t) :
    (∃ s : List stream_element_t,
        correct_gbeg (annotate_stream 0 (generate_stream d)) = some s) ∧
      (∃ st : output_state, pretty_run w d = some st) := by
  exact ⟨⟨gen_corr d 0, correct_gbeg_pipeline d⟩, pretty_run_total w d⟩

/-- C10: the annotator's running position after the whole generated
stream equals `width(d)`, and every `TextE`/`CondE`/`GEnd`/`NEnd` it
emits carries as `hpos` the flat-layout width of the stream prefix up
to and including that event. -/
theorem C10_annotator_positions (d : document_t) :
    annotate_position 0 (generate_stream d) = d.width ∧
      hpos_prefix_ok 0 (annotate_stream 0 (generate_stream d)) = true := by
  constructor
  · have h := annotate_position_gen d 0 []
    simpa [annotate_position] using h
  · exact hpos_prefix_ok_annotate (generate_stream d) 0

end pprint
